import Mathlib

/-!
Shallow embedding of `utils.py` from the IAGM feature-selection repository,
together with theorems settling the frozen claims about it.

Modelling conventions:
* machine floats become real numbers (`ℝ`);
* every random draw made by the code becomes an explicit input (a
  realization): the Metropolis-Hastings samplers receive a stream of
  per-iteration records carrying the proposal draw, the prior-draw source and
  the uniform draw; the Monte-Carlo integral approximator receives a stream of
  prior-parameter draws; `draw_indicator` receives the uniform draw and the
  fallback index draw;
* a running Python accumulation loop (`acc += ...` / `acc *= ...` over a
  `range`) becomes a `List.foldl` over `List.range`, and `enumerate(X)`
  becomes `List.enum`;
* `scipy.special.gammaln` (log of the absolute value of the Gamma function)
  becomes `lgamma` below.
-/

namespace IAGM

noncomputable section

open Real

/-- Embeds `AGD_pdf(x_k, mu, s_l, s_r)` (utils.py lines 93-103): asymmetric
Gaussian density of a single observation, left precision below the split
point `mu`, right precision at or above it. -/
def AGD_pdf (x_k mu s_l s_r : ℝ) : ℝ :=
  if x_k < mu then
    Real.sqrt (2 / Real.pi) / (s_l ^ (-(0.5) : ℝ) + s_r ^ (-(0.5) : ℝ)) *
      Real.exp (-(0.5) * s_l * (x_k - mu) ^ 2)
  else
    Real.sqrt (2 / Real.pi) / (s_l ^ (-(0.5) : ℝ) + s_r ^ (-(0.5) : ℝ)) *
      Real.exp (-(0.5) * s_r * (x_k - mu) ^ 2)

/-- Embeds `Asymmetric_Gassian_Distribution_pdf` (utils.py lines 71-90) at a
single entry `xik` of the column vector: the two-branch mixture value
accumulated into `y_k[i]`. -/
def Asymmetric_Gassian_Distribution_pdf
    (xik mu_jk s_ljk s_rjk mu_jk_irr s_ljk_irr s_rjk_irr rho : ℝ) : ℝ :=
  (if xik < mu_jk then
      rho * Real.sqrt (2 / Real.pi) / (s_ljk ^ (-(0.5) : ℝ) + s_rjk ^ (-(0.5) : ℝ)) *
        Real.exp (-(0.5) * s_ljk * (xik - mu_jk) ^ 2)
    else
      rho * Real.sqrt (2 / Real.pi) / (s_ljk ^ (-(0.5) : ℝ) + s_rjk ^ (-(0.5) : ℝ)) *
        Real.exp (-(0.5) * s_rjk * (xik - mu_jk) ^ 2)) +
  (if xik < mu_jk_irr then
      (1 - rho) * Real.sqrt (2 / Real.pi) /
          (s_ljk_irr ^ (-(0.5) : ℝ) + s_rjk_irr ^ (-(0.5) : ℝ)) *
        Real.exp (-(0.5) * s_ljk_irr * (xik - mu_jk_irr) ^ 2)
    else
      (1 - rho) * Real.sqrt (2 / Real.pi) /
          (s_ljk_irr ^ (-(0.5) : ℝ) + s_rjk_irr ^ (-(0.5) : ℝ)) *
        Real.exp (-(0.5) * s_rjk_irr * (xik - mu_jk_irr) ^ 2))

/-- Embeds `AGD_pdf_feature_selction(x, j, D, rho, mu, s_l, s_r, mu_irr,
s_l_irr, s_r_irr)` (utils.py lines 106-114): product over the `D` features of
the relevance-weighted two-branch mixture, accumulated into `y` starting from
`mpmath.mpf(1.0)`. -/
def AGD_pdf_feature_selction (x : ℕ → ℝ) (j D : ℕ)
    (rho mu s_l s_r mu_irr s_l_irr s_r_irr : ℕ → ℕ → ℝ) : ℝ :=
  (List.range D).foldl (fun y k =>
    y * (rho j k * AGD_pdf (x k) (mu j k) (s_l j k) (s_r j k) +
      (1 - rho j k) * AGD_pdf (x k) (mu_irr j k) (s_l_irr j k) (s_r_irr j k))) 1

/-- Embeds `scipy.special.gammaln`: the logarithm of the absolute value of the
Gamma function. -/
def lgamma (x : ℝ) : ℝ := Real.log |Real.Gamma x|

end

/-- A Python loop `acc = b; for y in l: acc = acc + f(y)` is the fold on the
left; this rewrites it as `b` plus the sum of the mapped list. -/
theorem foldl_add_map {α : Type} (f : α → ℝ) :
    ∀ (l : List α) (b : ℝ), l.foldl (fun acc y => acc + f y) b = b + (l.map f).sum := by
  intro l
  induction l with
  | nil => intro b; simp
  | cons a t ih => intro b; simp [List.foldl_cons, ih (b + f a)]; ring

/-- A Python loop `acc = b; for y in l: acc = acc * f(y)` is the fold on the
left; this rewrites it as `b` times the product of the mapped list. -/
theorem foldl_mul_map {α : Type} (f : α → ℝ) :
    ∀ (l : List α) (b : ℝ), l.foldl (fun acc y => acc * f y) b = b * (l.map f).prod := by
  intro l
  induction l with
  | nil => intro b; simp
  | cons a t ih => intro b; simp [List.foldl_cons, ih (b * f a)]; ring

/-- Randomness consumed by one MH iteration:
the proposal draw `cand` (from `norm.rvs(x, 0.75, 1)[0]`), the prior-draw
source `draws` (argument 1 and 2 are the distribution parameters the code
passes to `draw_normal`/`draw_gamma`, argument 3 numbers the fresh draws made
during the iteration), and the uniform draw `u`. -/
structure MHIter where
  cand : ℝ
  draws : ℝ → ℝ → ℕ → ℝ
  u : ℝ

noncomputable section

/-- Embeds `compare_mu_jk` (utils.py lines 117-128): responsibility-weighted
log-likelihood ratio over the observations, exponentiated, times the quotient
of two fresh `draw_normal(loc=lam[k], scale=1/r[k])` draws. -/
def compare_mu_jk (mu_jk previous_mu_jk s_ljk s_rjk : ℝ) (r lam : ℕ → ℝ)
    (z : ℕ → ℕ → ℕ → ℝ) (j k : ℕ) (X : List (ℕ → ℝ))
    (ndraw : ℝ → ℝ → ℕ → ℝ) : ℝ :=
  let compared_log_likelihood := X.enum.foldl (fun acc ix =>
    acc + z ix.1 j k * (Real.log (AGD_pdf (ix.2 k) mu_jk s_ljk s_rjk) -
      Real.log (AGD_pdf (ix.2 k) previous_mu_jk s_ljk s_rjk))) 0
  let likelihood_ratio := Real.exp compared_log_likelihood
  let prior := ndraw (lam k) (1 / r k) 0 / ndraw (lam k) (1 / r k) 1
  likelihood_ratio * prior

/-- Embeds `compare_s_ljk` (utils.py lines 150-161): the candidate replaces
the left precision in the numerator densities; the prior factor is the
quotient of two fresh `draw_gamma(beta[k]/2, 2/(beta[k]*w[k]))` draws. -/
def compare_s_ljk (s_ljk previous_s_ljk mu_jk s_rjk : ℝ) (beta w : ℕ → ℝ)
    (z : ℕ → ℕ → ℕ → ℝ) (j k : ℕ) (X : List (ℕ → ℝ))
    (gdraw : ℝ → ℝ → ℕ → ℝ) : ℝ :=
  let compared_log_likelihood := X.enum.foldl (fun acc ix =>
    acc + z ix.1 j k * (Real.log (AGD_pdf (ix.2 k) mu_jk s_ljk s_rjk) -
      Real.log (AGD_pdf (ix.2 k) mu_jk previous_s_ljk s_rjk))) 0
  let likelihood_ratio := Real.exp compared_log_likelihood
  let prior := gdraw (beta k / 2) (2 / (beta k * w k)) 0 /
    gdraw (beta k / 2) (2 / (beta k * w k)) 1
  likelihood_ratio * prior

/-- Embeds `compare_s_rjk` (utils.py lines 185-196): as `compare_s_ljk` but
the candidate replaces the right precision. -/
def compare_s_rjk (s_rjk previous_s_rjk mu_jk s_ljk : ℝ) (beta w : ℕ → ℝ)
    (z : ℕ → ℕ → ℕ → ℝ) (j k : ℕ) (X : List (ℕ → ℝ))
    (gdraw : ℝ → ℝ → ℕ → ℝ) : ℝ :=
  let compared_log_likelihood := X.enum.foldl (fun acc ix =>
    acc + z ix.1 j k * (Real.log (AGD_pdf (ix.2 k) mu_jk s_ljk s_rjk) -
      Real.log (AGD_pdf (ix.2 k) mu_jk s_ljk previous_s_rjk))) 0
  let likelihood_ratio := Real.exp compared_log_likelihood
  let prior := gdraw (beta k / 2) (2 / (beta k * w k)) 0 /
    gdraw (beta k / 2) (2 / (beta k * w k)) 1
  likelihood_ratio * prior

/-- Embeds `compare_delta_a` (utils.py lines 220-231): Beta-density log-ratio
in `delta_a` over the `M` components, exponentiated, times the quotient of two
fresh `draw_gamma(2, 0.5)` draws. -/
def compare_delta_a (delta_a previous_delta_a delta_b : ℝ) (rho : ℕ → ℕ → ℝ)
    (k M : ℕ) (gdraw : ℝ → ℝ → ℕ → ℝ) : ℝ :=
  let compared_log_likelihood := (List.range M).foldl (fun acc j =>
    acc + (delta_a - previous_delta_a) * Real.log (rho j k))
    ((M : ℝ) * (lgamma (delta_a + delta_b) - lgamma delta_a -
      lgamma (previous_delta_a + delta_b) + lgamma previous_delta_a))
  let likelihood_ratio := Real.exp compared_log_likelihood
  let prior := gdraw 2 0.5 0 / gdraw 2 0.5 1
  likelihood_ratio * prior

/-- Embeds `compare_delta_b` (utils.py lines 255-266): symmetric to
`compare_delta_a` with the shape-parameter roles swapped and `log(1 - rho)`
in place of `log(rho)`. -/
def compare_delta_b (delta_b previous_delta_b delta_a : ℝ) (rho : ℕ → ℕ → ℝ)
    (k M : ℕ) (gdraw : ℝ → ℝ → ℕ → ℝ) : ℝ :=
  let compared_log_likelihood := (List.range M).foldl (fun acc j =>
    acc + (delta_b - previous_delta_b) * Real.log (1 - rho j k))
    ((M : ℝ) * (lgamma (delta_a + delta_b) - lgamma delta_b -
      lgamma (delta_a + previous_delta_b) + lgamma previous_delta_b))
  let likelihood_ratio := Real.exp compared_log_likelihood
  let prior := gdraw 2 0.5 0 / gdraw 2 0.5 1
  likelihood_ratio * prior

/-- The invalid-candidate policy of `MH_Sampling_posterior_mu_jk`: no
constraint on the proposal. -/
def mu_policy : ℝ → Option ℝ := fun candidate => some candidate

/-- The invalid-candidate policy of `MH_Sampling_posterior_sljk` (utils.py
lines 174-175): a non-positive candidate is replaced by its absolute value
and the iteration continues. -/
def reflect_policy : ℝ → Option ℝ := fun candidate =>
  some (if candidate ≤ 0 then |candidate| else candidate)

/-- The invalid-candidate policy of `MH_Sampling_posterior_srjk`,
`MH_Sampling_posterior_delta_a` and `MH_Sampling_posterior_delta_b` (utils.py
lines 209-210, 244-245, 279-280): a non-positive candidate skips the whole
iteration (`continue`). -/
def skip_policy : ℝ → Option ℝ := fun candidate =>
  if candidate ≤ 0 then none else some candidate

/-- One iteration of the common MH loop body shared by the five samplers
(utils.py lines 139-146 and its four clones): apply the invalid-candidate
policy, compute `alpha = min(1, compare(...))`, and on `u < alpha` move to
the candidate and append it to the trace. The state is the pair
(current value `x`, trace `vec`). -/
def mhStep (pol : ℝ → Option ℝ) (cmp : ℝ → ℝ → MHIter → ℝ)
    (st : ℝ × List ℝ) (it : MHIter) : ℝ × List ℝ :=
  match pol it.cand with
  | none => st
  | some candidate =>
      if it.u < min 1 (cmp candidate st.1 it) then (candidate, st.2 ++ [candidate])
      else st

/-- The full MH run (utils.py lines 135-146 and clones): state seeded with the
starting value and a singleton trace, then exactly 750 iterations of
`mhStep`, each consuming the realization `σ i` of the random draws of that
iteration. -/
def mhRun (pol : ℝ → Option ℝ) (cmp : ℝ → ℝ → MHIter → ℝ) (x0 : ℝ)
    (σ : ℕ → MHIter) : ℝ × List ℝ :=
  ((List.range 750).map σ).foldl (mhStep pol cmp) (x0, [x0])

/-- Embeds `MH_Sampling_posterior_mu_jk` (utils.py lines 131-147): returns
`vec[-1]`, the last element of the trace. -/
def MH_Sampling_posterior_mu_jk (mu_jk s_ljk s_rjk : ℝ) (r lam : ℕ → ℝ)
    (z : ℕ → ℕ → ℕ → ℝ) (j k : ℕ) (X : List (ℕ → ℝ)) (σ : ℕ → MHIter) : ℝ :=
  (mhRun mu_policy
    (fun candidate x it => compare_mu_jk candidate x s_ljk s_rjk r lam z j k X it.draws)
    mu_jk σ).2.getLastD mu_jk

/-- Embeds `MH_Sampling_posterior_sljk` (utils.py lines 164-182). -/
def MH_Sampling_posterior_sljk (mu_jk s_ljk s_rjk : ℝ) (beta w : ℕ → ℝ)
    (z : ℕ → ℕ → ℕ → ℝ) (j k : ℕ) (X : List (ℕ → ℝ)) (σ : ℕ → MHIter) : ℝ :=
  (mhRun reflect_policy
    (fun candidate x it => compare_s_ljk candidate x mu_jk s_rjk beta w z j k X it.draws)
    s_ljk σ).2.getLastD s_ljk

/-- Embeds `MH_Sampling_posterior_srjk` (utils.py lines 199-217). -/
def MH_Sampling_posterior_srjk (mu_jk s_ljk s_rjk : ℝ) (beta w : ℕ → ℝ)
    (z : ℕ → ℕ → ℕ → ℝ) (j k : ℕ) (X : List (ℕ → ℝ)) (σ : ℕ → MHIter) : ℝ :=
  (mhRun skip_policy
    (fun candidate x it => compare_s_rjk candidate x mu_jk s_ljk beta w z j k X it.draws)
    s_rjk σ).2.getLastD s_rjk

/-- Embeds `MH_Sampling_posterior_delta_a` (utils.py lines 234-252). -/
def MH_Sampling_posterior_delta_a (delta_a delta_b : ℝ) (rho : ℕ → ℕ → ℝ)
    (k M : ℕ) (σ : ℕ → MHIter) : ℝ :=
  (mhRun skip_policy
    (fun candidate x it => compare_delta_a candidate x delta_b rho k M it.draws)
    delta_a σ).2.getLastD delta_a

/-- Embeds `MH_Sampling_posterior_delta_b` (utils.py lines 269-287). -/
def MH_Sampling_posterior_delta_b (delta_a delta_b : ℝ) (rho : ℕ → ℕ → ℝ)
    (k M : ℕ) (σ : ℕ → MHIter) : ℝ :=
  (mhRun skip_policy
    (fun candidate x it => compare_delta_b candidate x delta_a rho k M it.draws)
    delta_b σ).2.getLastD delta_b

end

/-- Step equation: a candidate the policy rejects outright leaves the state
unchanged. -/
theorem mhStep_none {pol : ℝ → Option ℝ} (cmp : ℝ → ℝ → MHIter → ℝ)
    {it : MHIter} (st : ℝ × List ℝ) (h : pol it.cand = none) :
    mhStep pol cmp st it = st := by
  unfold mhStep
  rw [h]

/-- Step equation: an accepted candidate becomes the current value and is
appended to the trace. -/
theorem mhStep_accept {pol : ℝ → Option ℝ} {cmp : ℝ → ℝ → MHIter → ℝ}
    {it : MHIter} (st : ℝ × List ℝ) {candidate : ℝ}
    (h : pol it.cand = some candidate)
    (hu : it.u < min 1 (cmp candidate st.1 it)) :
    mhStep pol cmp st it = (candidate, st.2 ++ [candidate]) := by
  unfold mhStep
  rw [h]
  exact if_pos hu

/-- Step equation: a rejected candidate leaves the state unchanged. -/
theorem mhStep_reject {pol : ℝ → Option ℝ} {cmp : ℝ → ℝ → MHIter → ℝ}
    {it : MHIter} (st : ℝ × List ℝ) {candidate : ℝ}
    (h : pol it.cand = some candidate)
    (hu : ¬ (it.u < min 1 (cmp candidate st.1 it))) :
    mhStep pol cmp st it = st := by
  unfold mhStep
  rw [h]
  exact if_neg hu

/-- Loop invariant of the MH body: when the last element of the trace is the
current value, this stays true through any number of iterations (the trace is
appended to exactly when the current value moves). -/
theorem mhFold_getLastD (pol : ℝ → Option ℝ) (cmp : ℝ → ℝ → MHIter → ℝ) (d : ℝ) :
    ∀ (l : List MHIter) (st : ℝ × List ℝ), st.2.getLastD d = st.1 →
      ((l.foldl (mhStep pol cmp) st).2).getLastD d = (l.foldl (mhStep pol cmp) st).1 := by
  intro l
  induction l with
  | nil => intro st h; simpa using h
  | cons it t ih =>
      intro st h
      rw [List.foldl_cons]
      refine ih _ ?_
      rcases hp : pol it.cand with _ | candidate
      · rw [mhStep_none cmp st hp]; exact h
      · by_cases hu : it.u < min 1 (cmp candidate st.1 it)
        · rw [mhStep_accept st hp hu]
          exact List.getLastD_concat _ _ _
        · rw [mhStep_reject st hp hu]; exact h

/-- The MH body only appends: the final trace extends the starting trace. -/
theorem mhFold_grows (pol : ℝ → Option ℝ) (cmp : ℝ → ℝ → MHIter → ℝ) :
    ∀ (l : List MHIter) (st : ℝ × List ℝ),
      ∃ t, (l.foldl (mhStep pol cmp) st).2 = st.2 ++ t := by
  intro l
  induction l with
  | nil => intro st; exact ⟨[], by simp⟩
  | cons it t ih =>
      intro st
      rw [List.foldl_cons]
      rcases hp : pol it.cand with _ | candidate
      · rw [mhStep_none cmp st hp]; exact ih st
      · by_cases hu : it.u < min 1 (cmp candidate st.1 it)
        · rw [mhStep_accept st hp hu]
          rcases ih (candidate, st.2 ++ [candidate]) with ⟨t2, ht2⟩
          exact ⟨candidate :: t2, by simpa using ht2⟩
        · rw [mhStep_reject st hp hu]; exact ih st

/-- When the uniform draw of every iteration fails the acceptance test taken at the
starting value, the MH state never changes. -/
theorem mhFold_reject_all (pol : ℝ → Option ℝ) (cmp : ℝ → ℝ → MHIter → ℝ) :
    ∀ (l : List MHIter) (x : ℝ) (v : List ℝ),
      (∀ it ∈ l, ∀ candidate, pol it.cand = some candidate →
        ¬ (it.u < min 1 (cmp candidate x it))) →
      l.foldl (mhStep pol cmp) (x, v) = (x, v) := by
  intro l
  induction l with
  | nil => intro x v _; rfl
  | cons it t ih =>
      intro x v h
      rw [List.foldl_cons]
      have hstep : mhStep pol cmp (x, v) it = (x, v) := by
        rcases hp : pol it.cand with _ | candidate
        · exact mhStep_none cmp _ hp
        · exact mhStep_reject _ hp (h it (List.mem_cons_self it t) candidate hp)
      rw [hstep]
      exact ih x v fun it2 h2 => h it2 (List.mem_cons_of_mem it h2)

/-- Invariant preservation for the current MH value: any property holding of
the start and of every value the policy can emit holds of the final value. -/
theorem mhFold_invariant (pol : ℝ → Option ℝ) (cmp : ℝ → ℝ → MHIter → ℝ)
    (P : ℝ → Prop) :
    ∀ (l : List MHIter) (st : ℝ × List ℝ),
      (∀ it ∈ l, ∀ candidate, pol it.cand = some candidate → P candidate) →
      P st.1 → P ((l.foldl (mhStep pol cmp) st).1) := by
  intro l
  induction l with
  | nil => intro st _ h; simpa using h
  | cons it t ih =>
      intro st hpol h
      rw [List.foldl_cons]
      refine ih _ (fun it2 h2 => hpol it2 (List.mem_cons_of_mem it h2)) ?_
      rcases hp : pol it.cand with _ | candidate
      · rw [mhStep_none cmp st hp]; exact h
      · by_cases hu : it.u < min 1 (cmp candidate st.1 it)
        · rw [mhStep_accept st hp hu]
          exact hpol it (List.mem_cons_self it t) candidate hp
        · rw [mhStep_reject st hp hu]; exact h

/-- The final MH value is either the starting value or the policy-adjusted
candidate of some iteration that was accepted against the state current at
that iteration. -/
theorem mhFold_last_accept (pol : ℝ → Option ℝ) (cmp : ℝ → ℝ → MHIter → ℝ) :
    ∀ (l : List MHIter) (st : ℝ × List ℝ),
      (l.foldl (mhStep pol cmp) st).1 = st.1 ∨
      ∃ p it q, l = p ++ it :: q ∧ ∃ candidate, pol it.cand = some candidate ∧
        it.u < min 1 (cmp candidate ((p.foldl (mhStep pol cmp) st).1) it) ∧
        (l.foldl (mhStep pol cmp) st).1 = candidate := by
  intro l
  induction l with
  | nil => intro st; exact Or.inl rfl
  | cons it t ih =>
      intro st
      rcases ih (mhStep pol cmp st it) with h | ⟨p, it2, q, hl, candidate, hp, hu, hres⟩
      · rcases hpc : pol it.cand with _ | candidate
        · rw [mhStep_none cmp st hpc] at h
          exact Or.inl (by rw [List.foldl_cons, mhStep_none cmp st hpc]; exact h)
        · by_cases hu : it.u < min 1 (cmp candidate st.1 it)
          · rw [mhStep_accept st hpc hu] at h
            refine Or.inr ⟨[], it, t, rfl, candidate, hpc, by simpa using hu, ?_⟩
            rw [List.foldl_cons, mhStep_accept st hpc hu]
            exact h
          · rw [mhStep_reject st hpc hu] at h
            exact Or.inl (by rw [List.foldl_cons, mhStep_reject st hpc hu]; exact h)
      · refine Or.inr ⟨it :: p, it2, q, by rw [hl, List.cons_append], candidate, hp, ?_, ?_⟩
        · rw [List.foldl_cons]; exact hu
        · rw [List.foldl_cons]; exact hres

/-- The returned value `vec[-1]` of every MH run equals the final current
value of the run. -/
theorem mhRun_getLastD (pol : ℝ → Option ℝ) (cmp : ℝ → ℝ → MHIter → ℝ)
    (x0 : ℝ) (σ : ℕ → MHIter) :
    (mhRun pol cmp x0 σ).2.getLastD x0 = (mhRun pol cmp x0 σ).1 :=
  mhFold_getLastD pol cmp x0 _ (x0, [x0]) rfl

noncomputable section

/-- Embeds the inner loop `for j in range(M): Z_ij_posteriors[i] = w(j)` of
`draw_posterior_z` (utils.py line 399).  The numpy assignment
`Z_ij_posteriors[i] = scalar` broadcasts the scalar over the whole row `i`,
so each pass of the loop overwrites the entire row with the value of that
iteration; this fold reproduces that row-overwrite semantics exactly. -/
def Z_row (w : ℕ → ℝ) (M : ℕ) : ℕ → ℝ :=
  (List.range M).foldl (fun _row j => fun _ => w j) (fun _ => 0)

/-- Embeds `draw_posterior_z(X, pi, rho, mu, s_l, s_r, mu_irr, s_l_irr,
s_r_irr, N, M, D)` (utils.py lines 392-409): first loop fills each row `i` of
`Z_ij_posteriors` by the broadcast assignment `Z_ij_posteriors[i] = pi[j] *
AGD_pdf_feature_selction(X[i], j, ...)` for `j` in `range(M)` (modelled by
`Z_row`); second loop sets `posterior_z[i, j, k] = rho[j, k] *
AGD_pdf(X[i, k], mu[j, k], s_l[j, k], s_r[j, k]) * Z_ij_posteriors[i, j]`. -/
def draw_posterior_z (X : ℕ → ℕ → ℝ) (pi : ℕ → ℝ)
    (rho mu s_l s_r mu_irr s_l_irr s_r_irr : ℕ → ℕ → ℝ)
    (N M D : ℕ) : ℕ → ℕ → ℕ → ℝ :=
  fun i j k =>
    rho j k * AGD_pdf (X i k) (mu j k) (s_l j k) (s_r j k) *
      Z_row (fun j2 => pi j2 *
        AGD_pdf_feature_selction (X i) j2 D rho mu s_l s_r mu_irr s_l_irr s_r_irr) M j

/-- First element of a list satisfying the predicate, scanning left to right:
the generator-and-`__next__` idiom of `draw_indicator` (utils.py line 384). -/
def firstTrue (p : ℕ → Prop) [DecidablePred p] : List ℕ → Option ℕ
  | [] => none
  | i :: rest => if p i then some i else firstTrue p rest

/-- Embeds `np.cumsum(pvec[:, j])[i]`: the cumulative sum of column `j` of the
weight matrix through row `i`. -/
def csum (f : ℕ → ℝ) (i : ℕ) : ℝ := ((List.range (i + 1)).map f).sum

open Classical in
/-- The index search of `draw_indicator` for column `j` (utils.py lines
381-386): the first row index `i` in `range(M)` with `c[i] - R > 0`. -/
def firstIdx (pvec : ℕ → ℕ → ℝ) (M : ℕ) (R : ℕ → ℝ) (j : ℕ) : Option ℕ :=
  firstTrue (fun i => 0 < csum (fun t => pvec t j) i - R j) (List.range M)

/-- Embeds `draw_indicator(pvec)` (utils.py lines 374-389) for an M-row,
N-column weight matrix.  `R j` is the realization of the draw
`np.random.uniform(0, c[-1], 1)` for column `j` and `fallback j` the
realization of `np.random.randint(0, pvec.shape[0])` used by the `except`
branch when the generator is exhausted. -/
def draw_indicator (pvec : ℕ → ℕ → ℝ) (M N : ℕ) (R : ℕ → ℝ)
    (fallback : ℕ → ℕ) : ℕ → ℕ :=
  fun j => (firstIdx pvec M R j).getD (fallback j)

/-- Randomness consumed by one pass of `integral_approx`: the prior draws of
the relevant and irrelevant AGD parameters and of the relevance weights made
at the top of each pass of the `while i < size` loop (utils.py lines
299-305). -/
structure PriorDraw where
  mu : ℕ → ℝ
  s_l : ℕ → ℝ
  s_r : ℕ → ℝ
  mu_irr : ℕ → ℝ
  s_l_irr : ℕ → ℝ
  s_r_irr : ℕ → ℝ
  rho : ℕ → ℝ

/-- Embeds `integral_approx(X, lam, r, beta_l, beta_r, w_l, w_r, delta_a,
delta_b, size)` (utils.py lines 290-316) at observation `i`: the accumulator
`temp` starts at zero, each of the `size` passes multiplies the per-feature
batch mixture densities into `ini` (starting from `np.ones`) and adds it to
`temp`, and the function returns `temp / float(size)`.  The hyperparameters
`lam, r, beta_l, beta_r, w_l, w_r, delta_a, delta_b` only parameterize the
prior draws, whose realizations are supplied by `σ`. -/
def integral_approx (X : ℕ → ℕ → ℝ) (lam r beta_l beta_r w_l w_r delta_a delta_b : ℕ → ℝ)
    (size N D : ℕ) (σ : ℕ → PriorDraw) : ℕ → ℝ :=
  fun i =>
    ((List.range size).foldl (fun temp t =>
      temp + (List.range D).foldl (fun ini k =>
        ini * Asymmetric_Gassian_Distribution_pdf (X i k) ((σ t).mu k) ((σ t).s_l k)
          ((σ t).s_r k) ((σ t).mu_irr k) ((σ t).s_l_irr k) ((σ t).s_r_irr k)
          ((σ t).rho k)) 1) 0) / (size : ℝ)

end

/-- Claim C9: for all `mu` and strictly positive `s_l`, `s_r`, `AGD_pdf`
equals `sqrt(2/pi) / (s_l^-0.5 + s_r^-0.5) * exp(-0.5 * s * (x - mu)^2)` with
`s = s_l` when `x < mu` and `s = s_r` otherwise; it is strictly positive for
every real `x`; and the two branch expressions agree at `x = mu`, so the
function is continuous at the split point. -/
theorem C9_AGD_pdf_formula_pos_continuous (mu s_l s_r : ℝ)
    (hl : 0 < s_l) (hr : 0 < s_r) :
    (∀ x, AGD_pdf x mu s_l s_r =
      Real.sqrt (2 / Real.pi) / (s_l ^ (-(0.5) : ℝ) + s_r ^ (-(0.5) : ℝ)) *
        Real.exp (-(0.5) * (if x < mu then s_l else s_r) * (x - mu) ^ 2)) ∧
    (∀ x, 0 < AGD_pdf x mu s_l s_r) ∧
    (Real.sqrt (2 / Real.pi) / (s_l ^ (-(0.5) : ℝ) + s_r ^ (-(0.5) : ℝ)) *
        Real.exp (-(0.5) * s_l * (mu - mu) ^ 2) =
      Real.sqrt (2 / Real.pi) / (s_l ^ (-(0.5) : ℝ) + s_r ^ (-(0.5) : ℝ)) *
        Real.exp (-(0.5) * s_r * (mu - mu) ^ 2)) := by
  have hcoef : 0 < Real.sqrt (2 / Real.pi) / (s_l ^ (-(0.5) : ℝ) + s_r ^ (-(0.5) : ℝ)) := by
    apply div_pos
    · exact Real.sqrt_pos.mpr (div_pos two_pos Real.pi_pos)
    · exact add_pos (Real.rpow_pos_of_pos hl _) (Real.rpow_pos_of_pos hr _)
  refine ⟨?_, ?_, ?_⟩
  · intro x
    by_cases h : x < mu
    · simp [AGD_pdf, h]
    · simp [AGD_pdf, h]
  · intro x
    by_cases h : x < mu
    · simpa [AGD_pdf, h] using mul_pos hcoef (Real.exp_pos _)
    · simpa [AGD_pdf, h] using mul_pos hcoef (Real.exp_pos _)
  · simp

/-- Closed witness for C9 at `mu = 0`, `s_l = s_r = 1`: the hypotheses
`0 < s_l` and `0 < s_r` hold there and the density is positive at `x = 0`. -/
theorem C9_witness : (0 : ℝ) < 1 ∧ 0 < AGD_pdf 0 0 1 1 :=
  ⟨by norm_num,
    (C9_AGD_pdf_formula_pos_continuous 0 1 1 (by norm_num) (by norm_num)).2.1 0⟩

/-- Claim C5: `compare_delta_a` computes
`exp(M * (lgamma(a+b) - lgamma(a) - lgamma(a_prev+b) + lgamma(a_prev)) +
sum_j (a - a_prev) * log(rho[j,k]))` times the prior factor, and
`compare_delta_b` the symmetric expression with the two shape parameters
swapped and `log(1 - rho[j,k])` in place of `log(rho[j,k])`. -/
theorem C5_compare_delta_loglikelihood (delta_a previous_delta_a delta_b previous_delta_b : ℝ)
    (rho : ℕ → ℕ → ℝ) (k M : ℕ) (gdraw : ℝ → ℝ → ℕ → ℝ) :
    compare_delta_a delta_a previous_delta_a delta_b rho k M gdraw =
      Real.exp ((M : ℝ) * (lgamma (delta_a + delta_b) - lgamma delta_a -
          lgamma (previous_delta_a + delta_b) + lgamma previous_delta_a) +
        ((List.range M).map (fun j =>
          (delta_a - previous_delta_a) * Real.log (rho j k))).sum) *
        (gdraw 2 0.5 0 / gdraw 2 0.5 1) ∧
    compare_delta_b delta_b previous_delta_b delta_a rho k M gdraw =
      Real.exp ((M : ℝ) * (lgamma (delta_a + delta_b) - lgamma delta_b -
          lgamma (delta_a + previous_delta_b) + lgamma previous_delta_b) +
        ((List.range M).map (fun j =>
          (delta_b - previous_delta_b) * Real.log (1 - rho j k))).sum) *
        (gdraw 2 0.5 0 / gdraw 2 0.5 1) := by
  constructor
  · rw [compare_delta_a, foldl_add_map (fun j => (delta_a - previous_delta_a) * Real.log (rho j k))]
  · rw [compare_delta_b, foldl_add_map (fun j => (delta_b - previous_delta_b) * Real.log (1 - rho j k))]

/-- Claim C6: in every one of the five MH samplers the factor multiplying the
exponentiated log-likelihood ratio is the quotient of the two fresh draws the
code makes from the prior with the call-time hyperparameters — draw 0 over
draw 1 of `Normal(lam[k], 1/r[k])` for `mu_jk`, of
`Gamma(beta[k]/2, 2/(beta[k]*w[k]))` for `s_ljk` and `s_rjk`, and of the
fixed `Gamma(2, 0.5)` for `delta_a` and `delta_b` — and in particular is
independent of the candidate and current parameter values, hence never a
ratio of prior densities evaluated at them. -/
theorem C6_prior_ratio_is_draw_quotient
    (candidate x mu_jk s_ljk s_rjk delta_a delta_b : ℝ)
    (r lam beta w : ℕ → ℝ) (z : ℕ → ℕ → ℕ → ℝ) (rho : ℕ → ℕ → ℝ)
    (j k M : ℕ) (X : List (ℕ → ℝ)) (draws : ℝ → ℝ → ℕ → ℝ) :
    compare_mu_jk candidate x s_ljk s_rjk r lam z j k X draws =
      Real.exp ((X.enum.map (fun ix => z ix.1 j k *
        (Real.log (AGD_pdf (ix.2 k) candidate s_ljk s_rjk) -
          Real.log (AGD_pdf (ix.2 k) x s_ljk s_rjk)))).sum) *
        (draws (lam k) (1 / r k) 0 / draws (lam k) (1 / r k) 1) ∧
    compare_s_ljk candidate x mu_jk s_rjk beta w z j k X draws =
      Real.exp ((X.enum.map (fun ix => z ix.1 j k *
        (Real.log (AGD_pdf (ix.2 k) mu_jk candidate s_rjk) -
          Real.log (AGD_pdf (ix.2 k) mu_jk x s_rjk)))).sum) *
        (draws (beta k / 2) (2 / (beta k * w k)) 0 /
          draws (beta k / 2) (2 / (beta k * w k)) 1) ∧
    compare_s_rjk candidate x mu_jk s_ljk beta w z j k X draws =
      Real.exp ((X.enum.map (fun ix => z ix.1 j k *
        (Real.log (AGD_pdf (ix.2 k) mu_jk s_ljk candidate) -
          Real.log (AGD_pdf (ix.2 k) mu_jk s_ljk x)))).sum) *
        (draws (beta k / 2) (2 / (beta k * w k)) 0 /
          draws (beta k / 2) (2 / (beta k * w k)) 1) ∧
    compare_delta_a candidate x delta_b rho k M draws =
      Real.exp ((M : ℝ) * (lgamma (candidate + delta_b) - lgamma candidate -
          lgamma (x + delta_b) + lgamma x) +
        ((List.range M).map (fun j2 => (candidate - x) * Real.log (rho j2 k))).sum) *
        (draws 2 0.5 0 / draws 2 0.5 1) ∧
    compare_delta_b candidate x delta_a rho k M draws =
      Real.exp ((M : ℝ) * (lgamma (delta_a + candidate) - lgamma candidate -
          lgamma (delta_a + x) + lgamma x) +
        ((List.range M).map (fun j2 => (candidate - x) * Real.log (1 - rho j2 k))).sum) *
        (draws 2 0.5 0 / draws 2 0.5 1) := by
  refine ⟨?_, ?_, ?_, ?_, ?_⟩
  · rw [compare_mu_jk, foldl_add_map (fun ix : ℕ × (ℕ → ℝ) => z ix.1 j k *
      (Real.log (AGD_pdf (ix.2 k) candidate s_ljk s_rjk) -
        Real.log (AGD_pdf (ix.2 k) x s_ljk s_rjk)))]
    rw [zero_add]
  · rw [compare_s_ljk, foldl_add_map (fun ix : ℕ × (ℕ → ℝ) => z ix.1 j k *
      (Real.log (AGD_pdf (ix.2 k) mu_jk candidate s_rjk) -
        Real.log (AGD_pdf (ix.2 k) mu_jk x s_rjk)))]
    rw [zero_add]
  · rw [compare_s_rjk, foldl_add_map (fun ix : ℕ × (ℕ → ℝ) => z ix.1 j k *
      (Real.log (AGD_pdf (ix.2 k) mu_jk s_ljk candidate) -
        Real.log (AGD_pdf (ix.2 k) mu_jk s_ljk x)))]
    rw [zero_add]
  · rw [compare_delta_a, foldl_add_map (fun j2 => (candidate - x) * Real.log (rho j2 k))]
  · rw [compare_delta_b, foldl_add_map (fun j2 => (candidate - x) * Real.log (1 - rho j2 k))]

/-- The left-to-right scan finds nothing exactly when no element of the list
satisfies the predicate. -/
theorem firstTrue_eq_none {p : ℕ → Prop} [DecidablePred p] :
    ∀ l : List ℕ, firstTrue p l = none ↔ ∀ i ∈ l, ¬ p i := by
  intro l
  induction l with
  | nil => simp [firstTrue]
  | cons i rest ih =>
      by_cases h : p i
      · simp [firstTrue, h]
      · simp [firstTrue, h, ih]

/-- On a contiguous ascending range, the left-to-right scan returns the least
index satisfying the predicate. -/
theorem firstTrue_range'_spec {p : ℕ → Prop} [DecidablePred p] :
    ∀ (n s a : ℕ), firstTrue p (List.range' s n) = some a →
      s ≤ a ∧ a < s + n ∧ p a ∧ ∀ b, s ≤ b → b < a → ¬ p b := by
  intro n
  induction n with
  | zero => intro s a h; simp [firstTrue] at h
  | succ n ih =>
      intro s a h
      rw [List.range'_succ] at h
      by_cases hp : p s
      · rw [firstTrue, if_pos hp] at h
        have ha : a = s := by simpa using h.symm
        subst ha
        exact ⟨le_refl a, by omega, hp, fun b hb1 hb2 => by omega⟩
      · rw [firstTrue, if_neg hp] at h
        rcases ih (s + 1) a h with ⟨h1, h2, h3, h4⟩
        refine ⟨by omega, by omega, h3, ?_⟩
        intro b hb1 hb2
        rcases Nat.eq_or_lt_of_le hb1 with hb | hb
        · rw [← hb]; exact hp
        · exact h4 b hb hb2

/-- Claim C7: for every weight matrix, the entry of `draw_indicator` for
column `j` is the first row index at which the cumulative sum of the column exceeds
the uniform draw `R j` (the first `i` with `c[i] - R > 0`), and when no such
index below `M` exists the entry is the fallback random index instead of an
error. -/
theorem C7_draw_indicator_first_exceed (pvec : ℕ → ℕ → ℝ) (M N : ℕ)
    (R : ℕ → ℝ) (fallback : ℕ → ℕ) (j : ℕ) :
    (∃ i, i < M ∧ 0 < csum (fun t => pvec t j) i - R j ∧
      (∀ b, b < i → ¬ (0 < csum (fun t => pvec t j) b - R j)) ∧
      draw_indicator pvec M N R fallback j = i) ∨
    ((∀ i, i < M → ¬ (0 < csum (fun t => pvec t j) i - R j)) ∧
      draw_indicator pvec M N R fallback j = fallback j) := by
  classical
  rcases h : firstIdx pvec M R j with _ | a
  · refine Or.inr ⟨?_, ?_⟩
    · intro i hi
      have h2 := (firstTrue_eq_none (List.range M)).mp (by rw [← firstIdx]; exact h)
      exact h2 i (List.mem_range.mpr hi)
    · unfold draw_indicator
      rw [h]
      rfl
  · have h2 : firstTrue (fun i => 0 < csum (fun t => pvec t j) i - R j)
        (List.range' 0 M) = some a := by
      rw [← List.range_eq_range', ← firstIdx]; exact h
    rcases firstTrue_range'_spec M 0 a h2 with ⟨_, ha2, ha3, ha4⟩
    refine Or.inl ⟨a, by omega, ha3, fun b hb => ha4 b (Nat.zero_le b) hb, ?_⟩
    unfold draw_indicator
    rw [h]
    rfl

/-- The per-entry batch density of `Asymmetric_Gassian_Distribution_pdf` is
the two-branch mixture `rho * AGD_pdf(relevant) + (1-rho) * AGD_pdf
(irrelevant)`. -/
theorem Asym_pdf_eq_mixture (xik mu_jk s_ljk s_rjk mu_jk_irr s_ljk_irr s_rjk_irr rho : ℝ) :
    Asymmetric_Gassian_Distribution_pdf xik mu_jk s_ljk s_rjk mu_jk_irr s_ljk_irr
        s_rjk_irr rho =
      rho * AGD_pdf xik mu_jk s_ljk s_rjk +
        (1 - rho) * AGD_pdf xik mu_jk_irr s_ljk_irr s_rjk_irr := by
  unfold Asymmetric_Gassian_Distribution_pdf AGD_pdf
  by_cases h1 : xik < mu_jk <;> by_cases h2 : xik < mu_jk_irr <;>
    simp [h1, h2] <;> ring

/-- Claim C8: for `size >= 1`, `integral_approx` returns, per observation
`i`, the arithmetic mean over the `size` prior draws of the product over the
`D` features of the mixture density `rho_k * AGD(relevant) + (1 - rho_k) *
AGD(irrelevant)`; with `size = 1` it returns exactly the single Monte Carlo
sample, with no averaging effect. -/
theorem C8_integral_approx_mean (X : ℕ → ℕ → ℝ)
    (lam r beta_l beta_r w_l w_r delta_a delta_b : ℕ → ℝ)
    (size N D : ℕ) (σ : ℕ → PriorDraw) (i : ℕ) (h : 1 ≤ size) :
    integral_approx X lam r beta_l beta_r w_l w_r delta_a delta_b size N D σ i =
      (((List.range size).map (fun t =>
        ((List.range D).map (fun k =>
          (σ t).rho k * AGD_pdf (X i k) ((σ t).mu k) ((σ t).s_l k) ((σ t).s_r k) +
          (1 - (σ t).rho k) *
            AGD_pdf (X i k) ((σ t).mu_irr k) ((σ t).s_l_irr k) ((σ t).s_r_irr k))).prod)).sum) /
        (size : ℝ) ∧
    integral_approx X lam r beta_l beta_r w_l w_r delta_a delta_b 1 N D σ i =
      ((List.range D).map (fun k =>
        (σ 0).rho k * AGD_pdf (X i k) ((σ 0).mu k) ((σ 0).s_l k) ((σ 0).s_r k) +
        (1 - (σ 0).rho k) *
          AGD_pdf (X i k) ((σ 0).mu_irr k) ((σ 0).s_l_irr k) ((σ 0).s_r_irr k))).prod := by
  have key : ∀ sz : ℕ,
      integral_approx X lam r beta_l beta_r w_l w_r delta_a delta_b sz N D σ i =
      (((List.range sz).map (fun t =>
        ((List.range D).map (fun k =>
          (σ t).rho k * AGD_pdf (X i k) ((σ t).mu k) ((σ t).s_l k) ((σ t).s_r k) +
          (1 - (σ t).rho k) *
            AGD_pdf (X i k) ((σ t).mu_irr k) ((σ t).s_l_irr k) ((σ t).s_r_irr k))).prod)).sum) /
        (sz : ℝ) := by
    intro sz
    rw [integral_approx]
    rw [foldl_add_map (fun t => (List.range D).foldl (fun ini k =>
      ini * Asymmetric_Gassian_Distribution_pdf (X i k) ((σ t).mu k) ((σ t).s_l k)
        ((σ t).s_r k) ((σ t).mu_irr k) ((σ t).s_l_irr k) ((σ t).s_r_irr k)
        ((σ t).rho k)) 1)]
    simp only [foldl_mul_map, one_mul, zero_add, Asym_pdf_eq_mixture]
  refine ⟨key size, ?_⟩
  rw [key 1]
  have h1 : List.range 1 = [0] := rfl
  simp [h1]

/-- Closed witness for C8 at `size = 1`, `D = 0`: the hypothesis `1 <= size`
holds and the estimate is the single (empty-product) Monte Carlo sample. -/
theorem C8_witness :
    1 ≤ 1 ∧
    integral_approx (fun _ _ => 0) (fun _ => 2) (fun _ => 3) (fun _ => 5)
      (fun _ => 7) (fun _ => 11) (fun _ => 13) (fun _ => 17) (fun _ => 19) 1 1 0
      (fun _ => ⟨fun _ => 0, fun _ => 1, fun _ => 2, fun _ => 3, fun _ => 5,
        fun _ => 7, fun _ => 11⟩) 0 = 1 := by
  refine ⟨le_refl 1, ?_⟩
  have h := (C8_integral_approx_mean (fun _ _ => 0) (fun _ => 2) (fun _ => 3)
    (fun _ => 5) (fun _ => 7) (fun _ => 11) (fun _ => 13) (fun _ => 17)
    (fun _ => 19) 1 1 0
    (fun _ => ⟨fun _ => 0, fun _ => 1, fun _ => 2, fun _ => 3, fun _ => 5,
      fun _ => 7, fun _ => 11⟩) 0 (le_refl 1)).2
  simpa using h

/-- Claim C10: calling `integral_approx` with `size = 0` skips the sampling
loop entirely and divides the all-zeros accumulator by zero, yielding the
unguarded quotient `0 / 0` for every observation rather than an error or a
valid estimate. -/
theorem C10_integral_approx_size_zero (X : ℕ → ℕ → ℝ)
    (lam r beta_l beta_r w_l w_r delta_a delta_b : ℕ → ℝ)
    (N D : ℕ) (σ : ℕ → PriorDraw) (i : ℕ) :
    integral_approx X lam r beta_l beta_r w_l w_r delta_a delta_b 0 N D σ i =
      0 / 0 := by
  simp [integral_approx]

/-- Counterexample to claim C2 as stated: with no observations (so the
likelihood ratio is `exp 0 = 1`) and a realization in which the first
`Normal(lam[k], 1/r[k])` prior draw is `-1` (a value of positive density for
the Normal distribution) and the second is `1`, the acceptance probability
`alpha = min(1, ratio)` of `MH_Sampling_posterior_mu_jk` is `-1 < 0`, outside
`[0, 1]`. -/
theorem C2_counterexample :
    min 1 (compare_mu_jk 0 0 1 1 (fun _ => 2) (fun _ => 3) (fun _ _ _ => 5) 0 0 []
      (fun _ _ n => if n = 0 then -1 else 1)) < 0 := by
  have h : compare_mu_jk 0 0 1 1 (fun _ => 2) (fun _ => 3) (fun _ _ _ => 5) 0 0 []
      (fun _ _ n => if n = 0 then -1 else 1) = -1 := by
    simp [compare_mu_jk]
  rw [h]
  have h2 : min (1 : ℝ) (-1) = -1 := min_eq_right (by norm_num)
  rw [h2]
  norm_num

/-- Claim C2 amended: in all five MH samplers the acceptance probability
`alpha = min(1, likelihood_ratio * prior_ratio)` never exceeds 1; for the
four samplers whose prior factor is a quotient of Gamma draws (strictly
positive realizations) `alpha` also lies in `[0, 1]`; for
`MH_Sampling_posterior_mu_jk`, `alpha` is nonnegative whenever the quotient
of its two Normal prior draws is positive — but not in general, since the
Normal draws can have opposite signs (see the counterexample). -/
theorem C2_alpha_bounds_amended
    (candidate x mu_jk s_ljk s_rjk delta_a delta_b : ℝ)
    (r lam beta w : ℕ → ℝ) (z : ℕ → ℕ → ℕ → ℝ) (rho : ℕ → ℕ → ℝ)
    (j k M : ℕ) (X : List (ℕ → ℝ)) (draws : ℝ → ℝ → ℕ → ℝ) :
    (min 1 (compare_mu_jk candidate x s_ljk s_rjk r lam z j k X draws) ≤ 1 ∧
     min 1 (compare_s_ljk candidate x mu_jk s_rjk beta w z j k X draws) ≤ 1 ∧
     min 1 (compare_s_rjk candidate x mu_jk s_ljk beta w z j k X draws) ≤ 1 ∧
     min 1 (compare_delta_a candidate x delta_b rho k M draws) ≤ 1 ∧
     min 1 (compare_delta_b candidate x delta_a rho k M draws) ≤ 1) ∧
    ((∀ a b n, 0 < draws a b n) →
      (0 ≤ min 1 (compare_s_ljk candidate x mu_jk s_rjk beta w z j k X draws) ∧
       0 ≤ min 1 (compare_s_rjk candidate x mu_jk s_ljk beta w z j k X draws) ∧
       0 ≤ min 1 (compare_delta_a candidate x delta_b rho k M draws) ∧
       0 ≤ min 1 (compare_delta_b candidate x delta_a rho k M draws))) ∧
    (0 < draws (lam k) (1 / r k) 0 / draws (lam k) (1 / r k) 1 →
      0 ≤ min 1 (compare_mu_jk candidate x s_ljk s_rjk r lam z j k X draws)) := by
  refine ⟨⟨min_le_left _ _, min_le_left _ _, min_le_left _ _, min_le_left _ _,
    min_le_left _ _⟩, ?_, ?_⟩
  · intro hp
    refine ⟨?_, ?_, ?_, ?_⟩ <;>
      · refine le_min (by norm_num) ?_
        simp only [compare_s_ljk, compare_s_rjk, compare_delta_a, compare_delta_b]
        exact mul_nonneg (Real.exp_pos _).le
          (div_nonneg (hp _ _ _).le (hp _ _ _).le)
  · intro hq
    refine le_min (by norm_num) ?_
    simp only [compare_mu_jk]
    exact mul_nonneg (Real.exp_pos _).le hq.le

/-- Closed witness for C2 at a realization with all prior draws equal to 1:
the positivity hypotheses hold and the acceptance probabilities lie in
`[0, 1]`. -/
theorem C2_witness :
    (∀ a b n, (0 : ℝ) < (fun (_ _ : ℝ) (_ : ℕ) => (1 : ℝ)) a b n) ∧
    0 ≤ min 1 (compare_s_ljk 1 1 0 1 (fun _ => 2) (fun _ => 3) (fun _ _ _ => 5)
      0 0 [] (fun _ _ _ => 1)) ∧
    0 ≤ min 1 (compare_mu_jk 1 1 1 1 (fun _ => 7) (fun _ => 11) (fun _ _ _ => 5)
      0 0 [] (fun _ _ _ => 1)) := by
  have hp : ∀ a b n, (0 : ℝ) < (fun (_ _ : ℝ) (_ : ℕ) => (1 : ℝ)) a b n :=
    fun _ _ _ => by norm_num
  have h := C2_alpha_bounds_amended 1 1 0 1 1 1 1 (fun _ => 7) (fun _ => 11)
    (fun _ => 2) (fun _ => 3) (fun _ _ _ => 5) (fun _ _ => 13) 0 0 1 []
    (fun _ _ _ => 1)
  exact ⟨hp, (h.2.1 hp).1, h.2.2 (by norm_num)⟩

/-- The skip policy only lets strictly positive candidates through. -/
theorem skip_policy_pos {candidate c : ℝ} (h : skip_policy candidate = some c) :
    0 < c := by
  unfold skip_policy at h
  by_cases hc : candidate ≤ 0
  · rw [if_pos hc] at h
    cases h
  · rw [if_neg hc] at h
    injection h with h2
    rw [← h2]
    exact not_le.mp hc

/-- The reflect policy emits nonnegative candidates. -/
theorem reflect_policy_nonneg {candidate c : ℝ}
    (h : reflect_policy candidate = some c) : 0 ≤ c := by
  unfold reflect_policy at h
  injection h with h2
  rw [← h2]
  by_cases hc : candidate ≤ 0
  · rw [if_pos hc]
    exact abs_nonneg candidate
  · rw [if_neg hc]
    exact (not_le.mp hc).le

/-- The reflect policy emits strictly positive candidates when the proposal
draw is nonzero. -/
theorem reflect_policy_pos {candidate c : ℝ}
    (h : reflect_policy candidate = some c) (hne : candidate ≠ 0) : 0 < c := by
  unfold reflect_policy at h
  injection h with h2
  rw [← h2]
  by_cases hc : candidate ≤ 0
  · rw [if_pos hc]
    exact abs_pos.mpr hne
  · rw [if_neg hc]
    exact not_le.mp hc

/-- The iteration realization used in the counterexample to claim C3: the
proposal draw is exactly 0 (a possible realization of `norm.rvs(x, 0.75)`),
all prior draws equal 1 and the uniform draw is 1/2. -/
noncomputable def C3iter : MHIter := ⟨0, fun _ _ _ => 1, 1 / 2⟩

/-- Under any comparison function that evaluates to 1 at `C3iter` (as
`compare_s_ljk` does when `X` is empty and the two Gamma draws are equal),
every iteration accepts the reflected candidate `|0| = 0`, so the current
value after at least one iteration is 0. -/
theorem C3_fold_zero (cmp : ℝ → ℝ → MHIter → ℝ)
    (hc : ∀ c x, cmp c x C3iter = 1) :
    ∀ (n : ℕ) (st : ℝ × List ℝ),
      ((List.replicate (n + 1) C3iter).foldl (mhStep reflect_policy cmp) st).1 = 0 := by
  have hpol : reflect_policy C3iter.cand = some 0 := by
    simp [reflect_policy, C3iter]
  have hstep : ∀ st : ℝ × List ℝ,
      mhStep reflect_policy cmp st C3iter = (0, st.2 ++ [0]) := by
    intro st
    refine mhStep_accept st hpol ?_
    rw [hc]
    show C3iter.u < min 1 1
    rw [min_self]
    show (1 : ℝ) / 2 < 1
    norm_num
  intro n
  induction n with
  | zero =>
      intro st
      rw [show List.replicate 1 C3iter = [C3iter] from rfl, List.foldl_cons,
        List.foldl_nil, hstep st]
  | succ n ih =>
      intro st
      rw [List.replicate_succ, List.foldl_cons, hstep st]
      exact ih _

/-- Counterexample to claim C3 as stated: starting `MH_Sampling_posterior_sljk`
at the strictly positive value 1 with no observations, all prior draws 1, and
every proposal draw exactly 0, every iteration reflects the candidate to
`|0| = 0` and accepts it (`alpha = min(1, exp(0) * 1/1) = 1 > 1/2 = u`), so
the sampler returns 0, which is not strictly positive. -/
theorem C3_counterexample :
    ¬ (0 < MH_Sampling_posterior_sljk 0 1 1 (fun _ => 2) (fun _ => 3)
      (fun _ _ _ => 0) 0 0 [] (fun _ => C3iter)) := by
  have hc : ∀ c x, (fun candidate x2 it => compare_s_ljk candidate x2 0 1
      (fun _ => 2) (fun _ => 3) (fun _ _ _ => 0) 0 0 [] it.draws) c x C3iter = 1 := by
    intro c x
    simp [compare_s_ljk, C3iter]
  have hres : MH_Sampling_posterior_sljk 0 1 1 (fun _ => 2) (fun _ => 3)
      (fun _ _ _ => 0) 0 0 [] (fun _ => C3iter) = 0 := by
    unfold MH_Sampling_posterior_sljk
    rw [mhRun_getLastD]
    unfold mhRun
    rw [List.map_const', List.length_range]
    rw [show (750 : ℕ) = 749 + 1 by norm_num]
    exact C3_fold_zero _ hc 749 (1, [1])
  rw [hres]
  exact lt_irrefl 0

/-- Claim C3 amended: each MH sampler applies its parameter-specific
invalid-candidate policy (mu_jk: none; s_ljk: replace a non-positive
candidate by its absolute value — which is 0 when the proposal draw is
exactly 0; s_rjk, delta_a, delta_b: skip the iteration).  Consequently, from
a strictly positive start, `MH_Sampling_posterior_srjk`,
`MH_Sampling_posterior_delta_a` and `MH_Sampling_posterior_delta_b` always
return a strictly positive value, while `MH_Sampling_posterior_sljk` always
returns a nonnegative value and a strictly positive one whenever every
proposal draw is nonzero. -/
theorem C3_domain_policy_amended
    (mu_jk s_ljk s_rjk delta_a delta_b : ℝ) (beta w : ℕ → ℝ)
    (z : ℕ → ℕ → ℕ → ℝ) (rho : ℕ → ℕ → ℝ) (j k M : ℕ)
    (X : List (ℕ → ℝ)) (σ : ℕ → MHIter) :
    (0 < s_ljk → (∀ n, (σ n).cand ≠ 0) →
      0 < MH_Sampling_posterior_sljk mu_jk s_ljk s_rjk beta w z j k X σ) ∧
    (0 < s_ljk →
      0 ≤ MH_Sampling_posterior_sljk mu_jk s_ljk s_rjk beta w z j k X σ) ∧
    (0 < s_rjk →
      0 < MH_Sampling_posterior_srjk mu_jk s_ljk s_rjk beta w z j k X σ) ∧
    (0 < delta_a →
      0 < MH_Sampling_posterior_delta_a delta_a delta_b rho k M σ) ∧
    (0 < delta_b →
      0 < MH_Sampling_posterior_delta_b delta_a delta_b rho k M σ) := by
  refine ⟨?_, ?_, ?_, ?_, ?_⟩
  · intro h0 hne
    unfold MH_Sampling_posterior_sljk
    rw [mhRun_getLastD]
    refine mhFold_invariant _ _ (fun v => 0 < v) _ _ ?_ h0
    intro it hit c hc
    rcases List.mem_map.mp hit with ⟨n, _, rfl⟩
    exact reflect_policy_pos hc (hne n)
  · intro h0
    unfold MH_Sampling_posterior_sljk
    rw [mhRun_getLastD]
    refine mhFold_invariant _ _ (fun v => 0 ≤ v) _ _ ?_ h0.le
    intro it _ c hc
    exact reflect_policy_nonneg hc
  · intro h0
    unfold MH_Sampling_posterior_srjk
    rw [mhRun_getLastD]
    refine mhFold_invariant _ _ (fun v => 0 < v) _ _ ?_ h0
    intro it _ c hc
    exact skip_policy_pos hc
  · intro h0
    unfold MH_Sampling_posterior_delta_a
    rw [mhRun_getLastD]
    refine mhFold_invariant _ _ (fun v => 0 < v) _ _ ?_ h0
    intro it _ c hc
    exact skip_policy_pos hc
  · intro h0
    unfold MH_Sampling_posterior_delta_b
    rw [mhRun_getLastD]
    refine mhFold_invariant _ _ (fun v => 0 < v) _ _ ?_ h0
    intro it _ c hc
    exact skip_policy_pos hc

/-- Closed witness for C3 at a realization whose proposal draws are all `-1`
and at strictly positive starting values: the hypotheses are discharged
concretely and the four positivity conclusions follow. -/
theorem C3_witness :
    (0 : ℝ) < 1 ∧
    0 < MH_Sampling_posterior_sljk 0 1 1 (fun _ => 2) (fun _ => 3)
      (fun _ _ _ => 5) 0 0 [] (fun _ => ⟨-1, fun _ _ _ => 1, 1 / 2⟩) ∧
    0 < MH_Sampling_posterior_srjk 0 1 1 (fun _ => 2) (fun _ => 3)
      (fun _ _ _ => 5) 0 0 [] (fun _ => ⟨-1, fun _ _ _ => 1, 1 / 2⟩) ∧
    0 < MH_Sampling_posterior_delta_a 1 1 (fun _ _ => 13) 0 1
      (fun _ => ⟨-1, fun _ _ _ => 1, 1 / 2⟩) ∧
    0 < MH_Sampling_posterior_delta_b 1 1 (fun _ _ => 13) 0 1
      (fun _ => ⟨-1, fun _ _ _ => 1, 1 / 2⟩) := by
  have h := C3_domain_policy_amended 0 1 1 1 1 (fun _ => 2) (fun _ => 3)
    (fun _ _ _ => 5) (fun _ _ => 13) 0 0 1 []
    (fun _ => ⟨-1, fun _ _ _ => 1, 1 / 2⟩)
  exact ⟨by norm_num, h.1 one_pos (fun n => by norm_num), h.2.2.1 one_pos,
    h.2.2.2.1 one_pos, h.2.2.2.2 one_pos⟩

/-- The trace contract of the common MH loop: the returned value is the
final current value of the run (never an unaccepted proposal); the trace is seeded
with the starting value; exactly 750 proposal iterations are consumed; when
every iteration rejects, the result is the starting value and the trace
stays a singleton; and the result is either the starting value or an
accepted (policy-adjusted) candidate of some iteration. -/
def MH_trace_spec (pol : ℝ → Option ℝ) (cmp : ℝ → ℝ → MHIter → ℝ)
    (x0 : ℝ) (σ : ℕ → MHIter) (result : ℝ) : Prop :=
  result = (mhRun pol cmp x0 σ).1 ∧
  (∃ t, (mhRun pol cmp x0 σ).2 = x0 :: t) ∧
  ((List.range 750).map σ).length = 750 ∧
  ((∀ it ∈ (List.range 750).map σ, ∀ candidate, pol it.cand = some candidate →
    ¬ (it.u < min 1 (cmp candidate x0 it))) →
    result = x0 ∧ (mhRun pol cmp x0 σ).2 = [x0]) ∧
  (result = x0 ∨ ∃ p it q, (List.range 750).map σ = p ++ it :: q ∧
    ∃ candidate, pol it.cand = some candidate ∧
      it.u < min 1 (cmp candidate ((p.foldl (mhStep pol cmp) (x0, [x0])).1) it) ∧
      result = candidate)

/-- The returned value `vec[-1]` of every MH run satisfies the trace
contract. -/
theorem mhRun_trace_spec (pol : ℝ → Option ℝ) (cmp : ℝ → ℝ → MHIter → ℝ)
    (x0 : ℝ) (σ : ℕ → MHIter) :
    MH_trace_spec pol cmp x0 σ ((mhRun pol cmp x0 σ).2.getLastD x0) := by
  have hres := mhRun_getLastD pol cmp x0 σ
  refine ⟨hres, ?_, by simp, ?_, ?_⟩
  · rcases mhFold_grows pol cmp ((List.range 750).map σ) (x0, [x0]) with ⟨t, ht⟩
    refine ⟨t, ?_⟩
    unfold mhRun
    rw [ht]
    rfl
  · intro hrej
    have hfix := mhFold_reject_all pol cmp ((List.range 750).map σ) x0 [x0] hrej
    constructor
    · show (mhRun pol cmp x0 σ).2.getLastD x0 = x0
      unfold mhRun
      rw [hfix]
      simp
    · unfold mhRun
      rw [hfix]
  · rcases mhFold_last_accept pol cmp ((List.range 750).map σ) (x0, [x0]) with
      h | ⟨p, it, q, hl, candidate, h1, h2, h3⟩
    · left
      rw [hres]
      unfold mhRun
      exact h
    · right
      refine ⟨p, it, q, hl, candidate, h1, h2, ?_⟩
      rw [hres]
      unfold mhRun
      exact h3

/-- Claim C4: every one of the five MH samplers runs exactly 750 proposal
iterations, appends to its trace only on acceptance (trace seeded with the
initial value), and returns the last element of the trace — the last
accepted value, which equals the initial value when no proposal is ever
accepted, and is never an unaccepted proposal. -/
theorem C4_trace_contract
    (mu_jk s_ljk s_rjk delta_a delta_b : ℝ) (r lam beta w : ℕ → ℝ)
    (z : ℕ → ℕ → ℕ → ℝ) (rho : ℕ → ℕ → ℝ) (j k M : ℕ)
    (X : List (ℕ → ℝ)) (σ : ℕ → MHIter) :
    MH_trace_spec mu_policy
      (fun candidate x it => compare_mu_jk candidate x s_ljk s_rjk r lam z j k X it.draws)
      mu_jk σ (MH_Sampling_posterior_mu_jk mu_jk s_ljk s_rjk r lam z j k X σ) ∧
    MH_trace_spec reflect_policy
      (fun candidate x it => compare_s_ljk candidate x mu_jk s_rjk beta w z j k X it.draws)
      s_ljk σ (MH_Sampling_posterior_sljk mu_jk s_ljk s_rjk beta w z j k X σ) ∧
    MH_trace_spec skip_policy
      (fun candidate x it => compare_s_rjk candidate x mu_jk s_ljk beta w z j k X it.draws)
      s_rjk σ (MH_Sampling_posterior_srjk mu_jk s_ljk s_rjk beta w z j k X σ) ∧
    MH_trace_spec skip_policy
      (fun candidate x it => compare_delta_a candidate x delta_b rho k M it.draws)
      delta_a σ (MH_Sampling_posterior_delta_a delta_a delta_b rho k M σ) ∧
    MH_trace_spec skip_policy
      (fun candidate x it => compare_delta_b candidate x delta_a rho k M it.draws)
      delta_b σ (MH_Sampling_posterior_delta_b delta_a delta_b rho k M σ) := by
  refine ⟨?_, ?_, ?_, ?_, ?_⟩
  · unfold MH_Sampling_posterior_mu_jk
    exact mhRun_trace_spec _ _ _ _
  · unfold MH_Sampling_posterior_sljk
    exact mhRun_trace_spec _ _ _ _
  · unfold MH_Sampling_posterior_srjk
    exact mhRun_trace_spec _ _ _ _
  · unfold MH_Sampling_posterior_delta_a
    exact mhRun_trace_spec _ _ _ _
  · unfold MH_Sampling_posterior_delta_b
    exact mhRun_trace_spec _ _ _ _

/-- Closed witness for C4: with every uniform draw equal to 2 (above every
acceptance probability, since `alpha <= 1`), no proposal is accepted and
`MH_Sampling_posterior_mu_jk` returns its starting value 5. -/
theorem C4_witness :
    MH_Sampling_posterior_mu_jk 5 1 1 (fun _ => 7) (fun _ => 11) (fun _ _ _ => 5)
      0 0 [] (fun _ => ⟨0, fun _ _ _ => 1, 2⟩) = 5 := by
  have h := (C4_trace_contract 5 1 1 1 1 (fun _ => 7) (fun _ => 11) (fun _ => 2)
    (fun _ => 3) (fun _ _ _ => 5) (fun _ _ => 13) 0 0 1 []
    (fun _ => ⟨0, fun _ _ _ => 1, 2⟩)).1
  refine (h.2.2.2.1 ?_).1
  intro it hit candidate _ hu
  rcases List.mem_map.mp hit with ⟨n, _, rfl⟩
  have h3 := lt_of_lt_of_le hu (min_le_left 1 _)
  exact absurd h3 (show ¬ (2 : ℝ) < 1 by norm_num)

/-- Each pass of the row-assignment loop overwrites the whole row, so after
the loop over `range (M+1)` every column of the row holds the value of the
last component `M`. -/
theorem Z_row_last (w : ℕ → ℝ) (M : ℕ) : Z_row w (M + 1) = fun _ => w M := by
  unfold Z_row
  rw [List.range_succ, List.foldl_append]
  rfl

/-- Claim C1 fails on the code: at `N = 1`, `M = 2`, `D = 1` with
`X = 0`, `pi = [1, 2]`, `rho = 1`, `mu = 0` and all precisions 1, the tensor
entry `(0,0,0)` produced by `draw_posterior_z` is NOT
`rho[0,0] * AGD_pdf(X[0,0]; mu[0,0], s_l[0,0], s_r[0,0]) * (pi[0] *
AGD_pdf_feature_selction(X[0], 0, ...))` — the broadcast assignment
`Z_ij_posteriors[i] = ...` overwrote the whole row, so component 0 is paired
with the cluster weight of the LAST component `j = 1` (which here is twice
the weight of component 0). -/
theorem C1_cluster_weight_divergence :
    draw_posterior_z (fun _ _ => 0) (fun j2 => (j2 : ℝ) + 1) (fun _ _ => 1)
      (fun _ _ => 0) (fun _ _ => 1) (fun _ _ => 1) (fun _ _ => 0) (fun _ _ => 1)
      (fun _ _ => 1) 1 2 1 0 0 0 ≠
    1 * AGD_pdf 0 0 1 1 *
      (1 * AGD_pdf_feature_selction (fun _ => 0) 0 1 (fun _ _ => 1) (fun _ _ => 0)
        (fun _ _ => 1) (fun _ _ => 1) (fun _ _ => 0) (fun _ _ => 1) (fun _ _ => 1)) := by
  have hd : AGD_pdf 0 0 1 1 = Real.sqrt (2 / Real.pi) / 2 := by
    unfold AGD_pdf
    rw [if_neg (lt_irrefl 0)]
    simp [Real.one_rpow, Real.exp_zero]
    norm_num
  have hdpos : 0 < AGD_pdf 0 0 1 1 := by
    rw [hd]
    exact div_pos (Real.sqrt_pos.mpr (div_pos two_pos Real.pi_pos)) two_pos
  have hfeat : ∀ j2 : ℕ,
      AGD_pdf_feature_selction (fun _ => 0) j2 1 (fun _ _ => 1) (fun _ _ => 0)
        (fun _ _ => 1) (fun _ _ => 1) (fun _ _ => 0) (fun _ _ => 1) (fun _ _ => 1) =
      AGD_pdf 0 0 1 1 := by
    intro j2
    unfold AGD_pdf_feature_selction
    rw [show List.range 1 = [0] from rfl, List.foldl_cons, List.foldl_nil]
    ring
  have hL : draw_posterior_z (fun _ _ => 0) (fun j2 => (j2 : ℝ) + 1) (fun _ _ => 1)
      (fun _ _ => 0) (fun _ _ => 1) (fun _ _ => 1) (fun _ _ => 0) (fun _ _ => 1)
      (fun _ _ => 1) 1 2 1 0 0 0 =
      1 * AGD_pdf 0 0 1 1 * (((1 : ℕ) : ℝ) + 1) * AGD_pdf 0 0 1 1 := by
    unfold draw_posterior_z
    rw [show (2 : ℕ) = 1 + 1 from rfl, Z_row_last]
    rw [hfeat 1]
    ring
  rw [hL, hfeat 0]
  intro heq
  push_cast at heq
  nlinarith [hdpos]

end IAGM
